import Mathlib

/-!
Verification development for the STAC-browser link extractor (`app.py`).

The Python source is shallowly embedded:
* strings are Lean `String`s manipulated through their `List Char` data,
  with helper functions mirroring the Python string methods used by the app;
* `urllib.parse.urljoin` / `urlparse` / `unquote` are modelled faithfully for
  the URL shapes this app handles (ASCII input; query/fragment text is kept as
  part of the path component, which agrees with the stdlib on every URL the
  app's code paths construct, and none of the app's inputs carry `;params`);
* HTTP fetching is an oracle `Graph` mapping a URL to a `FetchResult`
  (a decoded JSON document, a non-2xx status, a network error, or a JSON
  decode failure); a URL absent from the oracle is a network error;
* Streamlit calls (`st.warning`, `st.error`) become accumulated message lists;
  `requests.get` calls are logged in `fetched` (crawler) / `derivFetched`
  (asset deriver) so that "is fetched" is a statable property.
-/

/-! ### Python-style string helpers (on `List Char` / `String`) -/

/-- Model of Python `pat in s` on character lists (`pat` is the pattern). -/
def containsSub : List Char → List Char → Bool
  | s, pat =>
    if pat.isPrefixOf s then true
    else
      match s with
      | [] => false
      | _ :: rest => containsSub rest pat

/-- Model of Python `pat in s` for strings. -/
def strContains (s pat : String) : Bool := containsSub s.data pat.data

/-- Model of Python `s.startswith(p)`. -/
def pyStartsWith (s p : String) : Bool := p.data.isPrefixOf s.data

/-- Model of Python `s.endswith(p)`. -/
def strEndsWith (s p : String) : Bool := p.data.isSuffixOf s.data

/-- Model of Python `s.lower()` (ASCII). -/
def pyLower (s : String) : String := ⟨s.data.map Char.toLower⟩

/-- Model of Python `s.strip()`. -/
def pyStrip (s : String) : String :=
  ⟨((s.data.dropWhile Char.isWhitespace).reverse.dropWhile Char.isWhitespace).reverse⟩

/-- Model of Python `s.split(sep)` for a single-character separator,
    on character lists.  The result is always non-empty. -/
def splitChar (sep : Char) : List Char → List (List Char)
  | [] => [[]]
  | c :: rest =>
    if c == sep then [] :: splitChar sep rest
    else
      match splitChar sep rest with
      | [] => [[c]]
      | h :: t => (c :: h) :: t

/-- String version of `splitChar`. -/
def splitCharS (s : String) (sep : Char) : List String :=
  (splitChar sep s.data).map (fun l => ⟨l⟩)

/-- Model of Python `s.split(pat)` for a multi-character pattern, with
    explicit fuel (any fuel above `s.length` is enough); structural so that
    the kernel can evaluate it. -/
def splitSubF (pat : List Char) : Nat → List Char → List (List Char)
  | 0, l => [l]
  | fuel + 1, l =>
    if pat.isPrefixOf l ∧ pat ≠ [] then
      [] :: splitSubF pat fuel (l.drop pat.length)
    else
      match l with
      | [] => [[]]
      | c :: rest =>
        match splitSubF pat fuel rest with
        | [] => [[c]]
        | h :: t => (c :: h) :: t

/-- Model of Python `s.split(pat)` (non-empty `pat`). -/
def pySplitStr (s pat : String) : List String :=
  (splitSubF pat.data (s.data.length + 1) s.data).map (fun l => ⟨l⟩)

/-- Truthiness of an optional Python string (`None` and `""` are falsy). -/
def pyTruthy (o : Option String) : Bool := o.getD "" != ""

/-- Model of Python `s.isdigit()` (ASCII digits; `""` is falsy). -/
def pyIsDigit (s : String) : Bool := !s.data.isEmpty && s.data.all Char.isDigit

/-- One byte of Python `urllib.parse.unquote`: hex digit value. -/
def hexVal (c : Char) : Option Nat :=
  if c.isDigit then some (c.toNat - '0'.toNat)
  else if 'a' ≤ c ∧ c ≤ 'f' then some (c.toNat - 'a'.toNat + 10)
  else if 'A' ≤ c ∧ c ≤ 'F' then some (c.toNat - 'A'.toNat + 10)
  else none

/-- Model of Python `urllib.parse.unquote` restricted to single-byte escapes
    (the app's inputs are ASCII): `%XX` becomes the character with code `XX`,
    an ill-formed escape is kept literally. -/
def unquoteAux : List Char → List Char
  | [] => []
  | '%' :: a :: b :: rest =>
    match hexVal a, hexVal b with
    | some x, some y => Char.ofNat (16 * x + y) :: unquoteAux rest
    | _, _ => '%' :: unquoteAux (a :: b :: rest)
  | c :: rest => c :: unquoteAux rest

/-- Model of Python `urllib.parse.unquote` on strings. -/
def unquote (s : String) : String := ⟨unquoteAux s.data⟩

/-! ### Model of `urllib.parse` URL splitting and joining -/

/-- Characters allowed in a URL scheme (`urllib.parse.scheme_chars`). -/
def schemeChar (c : Char) : Bool := c.isAlphanum || c == '+' || c == '-' || c == '.'

/-- Scheme detection of `urllib.parse.urlsplit`: if the text before the first
    `:` is a non-empty run of scheme characters starting with a letter, return
    the lowercased scheme and the remainder, else `none`. -/
def splitScheme (s : String) : Option (String × String) :=
  let pre := s.data.takeWhile (fun c => c != ':')
  if pre.length < s.data.length && !pre.isEmpty &&
      (pre.headD 'x').isAlpha && pre.all schemeChar then
    some (⟨pre.map Char.toLower⟩, ⟨s.data.drop (pre.length + 1)⟩)
  else none

/-- Netloc extraction of `urllib.parse.urlsplit`: after a leading `//`, the
    netloc runs to the next `/`, the rest is the path. -/
def splitNetloc (s : String) : String × String :=
  if pyStartsWith s "//" then
    let after := s.data.drop 2
    (⟨after.takeWhile (fun c => c != '/')⟩, ⟨after.dropWhile (fun c => c != '/')⟩)
  else ("", s)

/-- `(scheme, netloc, path)` of a URL, as in `urllib.parse.urlsplit` (query
    and fragment text stays inside the path component in this model). -/
def urlsplitModel (s : String) : String × String × String :=
  match splitScheme s with
  | some (sc, rest) => (sc, (splitNetloc rest).1, (splitNetloc rest).2)
  | none => ("", (splitNetloc s).1, (splitNetloc s).2)

/-- `urllib.parse.uses_relative`. -/
def usesRelative : List String :=
  ["", "ftp", "http", "gopher", "nntp", "imap", "wais", "file", "https",
   "shttp", "mms", "prospero", "rtsp", "rtspu", "sftp", "svn", "svn+ssh",
   "ws", "wss"]

/-- `urllib.parse.uses_netloc`. -/
def usesNetloc : List String :=
  ["", "ftp", "http", "gopher", "nntp", "telnet", "imap", "wais", "file",
   "mms", "https", "shttp", "snews", "prospero", "rtsp", "rtspu", "rsync",
   "svn", "svn+ssh", "sftp", "nfs", "git", "git+ssh", "ws", "wss",
   "itms-services"]

/-- The `..` / `.` segment resolution loop of `urllib.parse.urljoin`
    (`resolved_path`, with `pop()` on `IndexError` ignored). -/
def dotResolve : List (List Char) → List (List Char) → List (List Char)
  | [], acc => acc
  | s :: rest, acc =>
    if s == ['.', '.'] then dotResolve rest acc.dropLast
    else if s == ['.'] then dotResolve rest acc
    else dotResolve rest (acc ++ [s])

/-- `segments[1:-1] = filter(None, segments[1:-1])`: drop empty segments,
    keeping the last one. -/
def keepLast : List (List Char) → List (List Char)
  | [] => []
  | [x] => [x]
  | x :: xs => if x == [] then keepLast xs else x :: keepLast xs

/-- `segments[1:-1] = filter(None, segments[1:-1])`: drop empty middle
    segments, keeping the first and last. -/
def filterMid : List (List Char) → List (List Char)
  | [] => []
  | [x] => [x]
  | x :: xs => x :: keepLast xs

/-- `'/'.join(resolved_path)` on character lists. -/
def joinSlashC : List (List Char) → List Char
  | [] => []
  | [x] => x
  | x :: xs => x ++ '/' :: joinSlashC xs

/-- Model of `urllib.parse.urlunsplit` restricted to scheme/netloc/path. -/
def unsplitModel (scheme netloc path : String) : String :=
  let u :=
    if netloc != "" || pyStartsWith path "//" then
      "//" ++ netloc ++ (if path != "" && !(pyStartsWith path "/") then "/" ++ path else path)
    else path
  if scheme != "" then scheme ++ ":" ++ u else u

/-- The relative-path merge of `urllib.parse.urljoin`: split the base path
    into directory segments, append the relative path's segments (filtering
    redundant empty middle segments), resolve `.` / `..`, and re-join. -/
def urljoinMerge (scheme netloc bpath path : String) : String :=
  let baseParts0 := splitChar '/' bpath.data
  let baseParts := if baseParts0.getLastD [] != [] then baseParts0.dropLast else baseParts0
  let segments :=
    if pyStartsWith path "/" then splitChar '/' path.data
    else filterMid (baseParts ++ splitChar '/' path.data)
  let resolved := dotResolve segments []
  let resolved :=
    if segments.getLastD [] == ['.'] || segments.getLastD [] == ['.', '.'] then
      resolved ++ [[]]
    else resolved
  let joined := joinSlashC resolved
  unsplitModel scheme netloc (if joined == [] then "/" else ⟨joined⟩)

/-- Model of `urllib.parse.urljoin` (CPython's algorithm, restricted to
    scheme/netloc/path as described in the header). -/
def urljoin (base url : String) : String :=
  if base == "" then url
  else if url == "" then base
  else
    let bp := urlsplitModel base
    let bscheme := bp.1
    let bnetloc := bp.2.1
    let bpath := bp.2.2
    let sr :=
      match splitScheme url with
      | some (sc, r) => (sc, r)
      | none => (bscheme, url)
    let scheme := sr.1
    let rest := sr.2
    if scheme != bscheme || !(usesRelative.contains scheme) then url
    else
      let np := splitNetloc rest
      if usesNetloc.contains scheme && np.1 != "" then
        unsplitModel scheme np.1 np.2
      else
        let netloc := if usesNetloc.contains scheme then bnetloc else np.1
        let path := np.2
        if path == "" then unsplitModel scheme netloc bpath
        else urljoinMerge scheme netloc bpath path

example : urljoin "https://h/r.json" "b.json" = "https://h/b.json" := by decide
example : urljoin "https://h/a/r.json" "../x.tif" = "https://h/x.tif" := by decide
example : urljoin "https://h/r.json" "ftp://e/x.tif" = "ftp://e/x.tif" := by decide
example : urljoin "https://h/r.json" "https://c/d.tif" = "https://c/d.tif" := by decide
example : urljoin "https://h/a/r.json" "./x.tif" = "https://h/a/x.tif" := by decide

/-! ### The URL normalizer (`extract_real_stac_url`, app.py lines 16-35) -/

/-- The STAC-browser marker fragment. -/
def extMarker : String := "#/external/"

/-- Embedding of `extract_real_stac_url` (app.py 16-35).  Returns `none`
    where the Python returns `None` after `st.error` (input without the
    marker); the non-fatal `.json` advisory does not affect the result and is
    not modelled. -/
def extract_real_stac_url (browser_url : String) : Option String :=
  if !(strContains browser_url extMarker) then none
  else
    let raw_url := pyStrip ((pySplitStr browser_url extMarker).getLastD "")
    let real_url := unquote raw_url
    let real_url :=
      if strContains real_url "?" then (splitCharS real_url '?').headD "" else real_url
    let real_url :=
      if (urlsplitModel real_url).1 == "" then "https://" ++ real_url else real_url
    some real_url

example :
    extract_real_stac_url
      "https://browser.example/#/external/https%3A%2F%2Fhost%2Fa.json?language=en" =
      some "https://host/a.json" := by decide

example : extract_real_stac_url "https://x/#/external/host/a.json" =
    some "https://host/a.json" := by decide

/-! ### Data model: documents and the fetch oracle -/

/-- One entry of a STAC document's `assets` mapping (`href`, plus the
    `title`/`description` attributes the code reads but does not use);
    a missing `href` is modelled by `""` exactly as `asset_info.get("href", "")`. -/
structure Asset where
  href : String := ""
  title : String := ""
  description : String := ""
deriving DecidableEq, Repr

/-- One entry of a document's `links` array (`link.get("href")`,
    `link.get("rel")`). -/
structure Link where
  href : Option String := none
  rel : Option String := none
deriving DecidableEq, Repr

/-- The fields of a decoded STAC JSON document that the app reads.  `assets`
    and `properties` are association lists in dictionary insertion order. -/
structure Doc where
  type : Option String := none
  stac_version : Option String := none
  assets : List (String × Asset) := []
  properties : List (String × String) := []
  id : Option String := none
  links : List Link := []
deriving DecidableEq, Repr

/-- Outcome of one `requests.get` + decode: 200 with a JSON body, a non-2xx
    status, a network-level exception, or 200 with a body that fails JSON
    decoding. -/
inductive FetchResult where
  | ok : Doc → FetchResult
  | badStatus : FetchResult
  | netErr : FetchResult
  | badJson : FetchResult
deriving DecidableEq, Repr

/-- The HTTP oracle: an association list from URL to fetch outcome.  A URL
    absent from the oracle is a network error. -/
def Graph := List (String × FetchResult)

/-- Look up a URL in the oracle. -/
def fetchOf (g : Graph) (url : String) : FetchResult :=
  (List.lookup url g).getD .netErr

/-! ### The asset deriver (`generate_tiff_url`, app.py lines 50-143) -/

/-- `href and href.endswith((".tif", ".tiff"))` (app.py 71). -/
def tifCheck (href : String) : Bool :=
  href != "" && (strEndsWith href ".tif" || strEndsWith href ".tiff")

/-- Embedding of `resolve_relative_url` (app.py 38-47). -/
def resolve_relative_url (base_url relative_url : String) : String :=
  if pyStartsWith relative_url "http://" || pyStartsWith relative_url "https://" then
    relative_url
  else
    let r := if pyStartsWith relative_url "./" then ⟨relative_url.data.drop 2⟩ else relative_url
    urljoin base_url r

/-- `any(keyword in asset_name.lower() for keyword in ["visual", "rgb", "natural"])`
    (app.py 76). -/
def isPreferred (asset_name : String) : Bool :=
  strContains (pyLower asset_name) "visual" ||
  strContains (pyLower asset_name) "rgb" ||
  strContains (pyLower asset_name) "natural"

/-- The `visual_assets` accumulation loop of app.py 64-79: a preferred raster
    asset is inserted at the front of the list, any other raster asset is
    appended at the back. -/
def buildVisualAux (base : String) : List (String × Asset) → List String → List String
  | [], acc => acc
  | (asset_name, asset_info) :: rest, acc =>
    if tifCheck asset_info.href then
      let absolute_href := resolve_relative_url base asset_info.href
      if isPreferred asset_name then buildVisualAux base rest (absolute_href :: acc)
      else buildVisualAux base rest (acc ++ [absolute_href])
    else buildVisualAux base rest acc

/-- `re.match(r"\d{4}-\d{2}-\d{2}", part)` (a prefix match, app.py 121). -/
def dateStart (s : String) : Bool :=
  match s.data with
  | a :: b :: c :: d :: e :: f :: g :: h :: i :: j :: _ =>
    a.isDigit && b.isDigit && c.isDigit && d.isDigit && e == '-' &&
    f.isDigit && g.isDigit && h == '-' && i.isDigit && j.isDigit
  | _ => false

/-- `part.isdigit() and len(part) == 2` (app.py 117). -/
def gridTest (part : String) : Bool := pyIsDigit part && part.data.length == 2

/-- `part.isdigit() and len(part) == 12` (app.py 119). -/
def tileTest (part : String) : Bool := pyIsDigit part && part.data.length == 12

/-- The path-segment pattern loop of app.py 114-122, over the remaining
    path parts; each hit overwrites the current value of its component
    (the `enumerate` index `i` with `path_parts[i + 1]` becomes the head of
    the remaining parts). -/
def urlLoop :
    List String →
    Option String × Option String × Option String × Option String →
    Option String × Option String × Option String × Option String
  | [], acc => acc
  | part :: rest, (ev, gr, ti, da) =>
    let ev := if strContains part "events" && !rest.isEmpty then some (rest.headD "") else ev
    let gr := if gridTest part then some part else gr
    let ti := if tileTest part then some part else ti
    let da := if dateStart part then some part else da
    urlLoop rest (ev, gr, ti, da)

/-- The hard-coded Maxar URL template of app.py 136. -/
def tiffTemplate (ev gr ti da bid : String) : String :=
  "https://maxar-opendata.s3.amazonaws.com/events/" ++ ev ++ "/ard/" ++ gr ++
    "/" ++ ti ++ "/" ++ da ++ "/" ++ bid ++ "-visual.tif"

/-- The fixed fallback image identifier (app.py 132/134). -/
def fallbackImageId : String := "10400100AFC26500"

/-- The per-item warning text of app.py 142 (the exception detail after the
    colon is not modelled). -/
def genWarn (url : String) : String := "Could not generate TIFF URL for " ++ url

/-- Embedding of `generate_tiff_url` (app.py 50-143).  Returns the derived
    URL (or `none`) together with the emitted warnings.  A network error or a
    JSON decode error raises inside the `try`, so it is caught and warned
    about; a non-200 status just falls through to `return None` with no
    warning.  The single `requests.get` call this function performs is logged
    by the caller (see `discoverEffect`). -/
def generate_tiff_url (g : Graph) (stac_item_url : String) : Option String × List String :=
  match fetchOf g stac_item_url with
  | .netErr => (none, [genWarn stac_item_url])
  | .badJson => (none, [genWarn stac_item_url])
  | .badStatus => (none, [])
  | .ok item_data =>
    if item_data.type == some "Feature" && pyTruthy item_data.stac_version then
      match buildVisualAux stac_item_url item_data.assets [] with
      | v :: _ => (some v, [])
      | [] =>
        let properties := item_data.properties
        let event_name := List.lookup "event" properties
        let grid := List.lookup "grid" properties
        let tile := List.lookup "tile" properties
        let date :=
          match List.lookup "datetime" properties with
          | some date_str =>
            if date_str != "" then some ((splitCharS date_str 'T').headD "") else none
          | none => none
        let image_id := item_data.id
        let path_parts := splitCharS (urlsplitModel stac_item_url).2.2 '/'
        let c := urlLoop path_parts (event_name, grid, tile, date)
        if pyTruthy c.1 && pyTruthy c.2.1 && pyTruthy c.2.2.1 && pyTruthy c.2.2.2 then
          let base_image_id :=
            if pyTruthy image_id then
              let iid := (image_id.getD "").data
              if 16 ≤ iid.length ∧ iid.any Char.isAlpha then (⟨iid.take 16⟩ : String)
              else fallbackImageId
            else fallbackImageId
          (some (tiffTemplate (c.1.getD "") (c.2.1.getD "") (c.2.2.1.getD "")
              (c.2.2.2.getD "") base_image_id), [])
        else (none, [])
    else (none, [])

/-! ### The crawler (`crawl_stac`, app.py lines 146-189) -/

/-- Mutable state of one crawl run: the shared `visited` set (as an insertion
    -ordered list), the module accumulators `all_links` / `tiff_links`, the
    log of URLs passed to `requests.get` by `crawl_stac` (`fetched`) and by
    `generate_tiff_url` (`derivFetched`), and the `st.warning` messages. -/
structure CrawlState where
  visited : List String := []
  all_links : List String := []
  tiff_links : List String := []
  fetched : List String := []
  derivFetched : List String := []
  warnings : List String := []
deriving DecidableEq, Repr

/-- The empty state at the start of a run. -/
def initState : CrawlState := {}

/-- Body of app.py 175-186 for one link whose `rel` is `item` or
    `collection`: record the discovered URL if new and, for an `item`,
    derive a TIFF URL (which performs one fetch, logged in `derivFetched`).
    No branch touches `visited` or `fetched`. -/
def discoverEffect (g : Graph) (rel : Option String) (abs_href : String)
    (st : CrawlState) : CrawlState :=
  if st.all_links.contains abs_href then st
  else
    let st3 := { st with all_links := st.all_links ++ [abs_href] }
    if rel == some "item" then
      let res := generate_tiff_url g abs_href
      let st4 := { st3 with
        derivFetched := st3.derivFetched ++ [abs_href],
        warnings := st3.warnings ++ res.2 }
      match res.1 with
      | some t =>
        let t2 :=
          if !(pyStartsWith t "http://" || pyStartsWith t "https://") then
            resolve_relative_url abs_href t
          else t
        { st4 with tiff_links := st4.tiff_links ++ [t2] }
      | none => st4
    else st3

/-- The `for link in links` loop of app.py 166-189, parameterised by the
    recursive call used for `collection` links. -/
def linksStep (g : Graph) (recurse : String → CrawlState → CrawlState) :
    List Link → String → CrawlState → CrawlState
  | [], _, st => st
  | link :: rest, url, st =>
    let st' :=
      match link.href with
      | none => st
      | some href =>
        if href == "" then st
        else
          let abs_href := urljoin url href
          if link.rel == some "item" || link.rel == some "collection" then
            let st2 := discoverEffect g link.rel abs_href st
            if link.rel == some "collection" then recurse abs_href st2 else st2
          else st
    linksStep g recurse rest url st'

/-- Embedding of `crawl_stac` (app.py 146-189) with explicit fuel: if the URL
    is already visited the branch stops; otherwise it is marked visited, then
    fetched (the fetch attempt is logged); a fetch failure warns and stops the
    branch; on success every link is processed by `linksStep`.  Any fuel above
    the number of oracle entries is enough (`crawlF_stable`). -/
def crawlF (g : Graph) : Nat → String → CrawlState → CrawlState
  | 0, _, st => st
  | fuel + 1, url, st =>
    if st.visited.contains url then st
    else
      let st1 := { st with visited := st.visited ++ [url], fetched := st.fetched ++ [url] }
      match fetchOf g url with
      | .ok data => linksStep g (crawlF g fuel) data.links url st1
      | _ => { st1 with warnings := st1.warnings ++ ["Failed to fetch " ++ url] }

/-- `crawl_stac(url)` started with a fresh `visited` set and empty
    accumulators, with sufficient fuel. -/
def crawl_stac (g : Graph) (url : String) : CrawlState :=
  crawlF g (g.length + 1) url initState

/-- The main execution block of app.py 193-198: normalize the input; if
    normalization fails (or yields a falsy string) nothing is crawled. -/
def runApp (g : Graph) (input : String) : Option CrawlState :=
  match extract_real_stac_url input with
  | none => none
  | some u => if u == "" then none else some (crawl_stac g u)

/-! ### Concrete documents and oracles used by the claims -/

/-- Two-document cycle: `a.json` and `b.json` point at each other with
    `rel=collection` links. -/
def cycDocA : Doc := { links := [{ href := some "b.json", rel := some "collection" }] }

/-- Second document of the cycle. -/
def cycDocB : Doc := { links := [{ href := some "a.json", rel := some "collection" }] }

/-- Oracle for the A → B → A collection cycle. -/
def cycGraph : Graph :=
  [("https://h/a.json", .ok cycDocA), ("https://h/b.json", .ok cycDocB)]

/-- Root document with an `item` link to `b.json` and a `collection` link to
    `c.json`. -/
def rootDoc : Doc :=
  { links := [{ href := some "b.json", rel := some "item" },
              { href := some "c.json", rel := some "collection" }] }

/-- Oracle where the root, `b.json` and `c.json` all fetch successfully and
    `c.json` has no further collection links. -/
def twoLinkGraph : Graph :=
  [("https://h/r.json", .ok rootDoc), ("https://h/b.json", .ok {}),
   ("https://h/c.json", .ok { links := [] })]

/-- Oracle where `c.json` is missing, so fetching it is a network error. -/
def failCGraph : Graph :=
  [("https://h/r.json", .ok rootDoc), ("https://h/b.json", .ok {})]

/-- An item with two preferred (`visual…`) raster assets, in this order. -/
def twoVisualDoc : Doc :=
  { type := some "Feature", stac_version := some "1.0.0",
    assets := [("visual_a", { href := "a.tif" }), ("visual_b", { href := "b.tif" })] }

/-- Oracle serving `twoVisualDoc`. -/
def twoVisualGraph : Graph := [("https://h/item.json", .ok twoVisualDoc)]

/-- An item with no raster assets whose properties supply all four fallback
    components, with `grid = "44"`. -/
def propsDoc : Doc :=
  { type := some "Feature", stac_version := some "1.0.0",
    properties := [("event", "X"), ("grid", "44"), ("tile", "033313123002"),
                   ("datetime", "2025-01-01T00:00:00Z")],
    id := some "abc" }

/-- Oracle serving `propsDoc` at a URL whose path contains the two-digit
    segment `55`. -/
def overrideGraph : Graph := [("https://h/55/item.json", .ok propsDoc)]

/-- The same properties-complete item, with one non-raster asset, at a URL
    whose path matches no pattern. -/
def fallbackDoc : Doc :=
  { type := some "Feature", stac_version := some "1.0.0",
    assets := [("thumbnail", { href := "thumb.png" })],
    properties := [("event", "X"), ("grid", "44"), ("tile", "033313123002"),
                   ("datetime", "2025-01-01T00:00:00Z")],
    id := some "abc" }

/-- Oracle serving `fallbackDoc`. -/
def fallbackGraph : Graph := [("https://example.com/item.json", .ok fallbackDoc)]

/-- Oracle answering a non-2xx status for the single item URL. -/
def badStatusGraph : Graph := [("https://h/i.json", .badStatus)]

/-- An item whose only raster asset href carries an `ftp` scheme. -/
def ftpAssetDoc : Doc :=
  { type := some "Feature", stac_version := some "1.0.0",
    assets := [("data", { href := "ftp://e/x.tif" })] }

/-- Oracle serving `ftpAssetDoc`. -/
def ftpAssetGraph : Graph := [("https://h/item.json", .ok ftpAssetDoc)]

example : generate_tiff_url twoVisualGraph "https://h/item.json" =
    (some "https://h/b.tif", []) := by decide

example : generate_tiff_url fallbackGraph "https://example.com/item.json" =
    (some "https://maxar-opendata.s3.amazonaws.com/events/X/ard/44/033313123002/2025-01-01/10400100AFC26500-visual.tif",
     []) := by decide

example : generate_tiff_url overrideGraph "https://h/55/item.json" =
    (some "https://maxar-opendata.s3.amazonaws.com/events/X/ard/55/033313123002/2025-01-01/10400100AFC26500-visual.tif",
     []) := by decide

example : generate_tiff_url badStatusGraph "https://h/i.json" = (none, []) := by decide

example : generate_tiff_url ftpAssetGraph "https://h/item.json" =
    (some "ftp://e/x.tif", []) := by decide

example : (crawl_stac twoLinkGraph "https://h/r.json").all_links =
    ["https://h/b.json", "https://h/c.json"] := by decide

example : (crawl_stac twoLinkGraph "https://h/r.json").fetched =
    ["https://h/r.json", "https://h/c.json"] := by decide

example : (crawl_stac twoLinkGraph "https://h/r.json").derivFetched =
    ["https://h/b.json"] := by decide

example : (crawl_stac failCGraph "https://h/r.json").all_links =
    ["https://h/b.json", "https://h/c.json"] := by decide

example : (crawl_stac failCGraph "https://h/r.json").warnings =
    ["Failed to fetch https://h/c.json"] := by decide

example : (crawl_stac cycGraph "https://h/a.json").fetched =
    ["https://h/a.json", "https://h/b.json"] := by decide

/-! ### Derived notions used by the theorems -/

/-- The raster assets of an item, in encounter order (those passing
    app.py line 71's check). -/
def rasterAssets (assets : List (String × Asset)) : List (String × Asset) :=
  assets.filter (fun p => tifCheck p.2.href)

/-- The preferred (visual/rgb/natural) raster assets, in encounter order. -/
def prefAssets (assets : List (String × Asset)) : List (String × Asset) :=
  (rasterAssets assets).filter (fun p => isPreferred p.1)

/-- The non-preferred raster assets, in encounter order. -/
def nonprefAssets (assets : List (String × Asset)) : List (String × Asset) :=
  (rasterAssets assets).filter (fun p => !(isPreferred p.1))

/-- The absolute URL of one asset of an item. -/
def absHrefOf (base : String) (p : String × Asset) : String :=
  resolve_relative_url base p.2.href

/-- The path parts eligible to set `event_name` in the loop of app.py
    114-116: the successor of every part containing `"events"`. -/
def eventCands : List String → List String
  | [] => []
  | part :: rest =>
    (if strContains part "events" && !rest.isEmpty then [rest.headD ""] else []) ++
      eventCands rest

/-- The last element of `l` if there is one, else the initial value:
    the effect of a repeated overwrite. -/
def lastOr (l : List String) (init : Option String) : Option String :=
  match l.getLast? with
  | some x => some x
  | none => init

/-- The number of oracle keys not yet visited (the crawl's termination
    measure). -/
def unvisitedCount (g : Graph) (v : List String) : Nat :=
  ((g.map Prod.fst).toFinset.filter (fun k => ¬ k ∈ v)).card

/-- Crawl invariant: no URL was fetched twice, and every fetched URL was
    marked visited. -/
def FetchInv (st : CrawlState) : Prop :=
  st.fetched.Nodup ∧ ∀ u ∈ st.fetched, u ∈ st.visited

/-! ### Theorems -/

/-- C5: `extract_real_stac_url` on the browser URL embedding
    `https%3A%2F%2Fhost%2Fa.json?language=en` percent-decodes the text after
    the `#/external/` marker and strips everything from the first `?`,
    yielding `https://host/a.json`. -/
theorem normalize_strips_marker_and_query :
    extract_real_stac_url
      "https://browser.example/#/external/https%3A%2F%2Fhost%2Fa.json?language=en" =
      some "https://host/a.json" := by decide

/-- C6: an input without the `#/external/` marker makes normalization return
    `None` (after `st.error`), and the main block then performs no crawl at
    all. -/
theorem missing_marker_fatal (g : Graph) (input : String)
    (h : strContains input extMarker = false) :
    extract_real_stac_url input = none ∧ runApp g input = none := by
  have he : extract_real_stac_url input = none := by
    unfold extract_real_stac_url
    simp [h]
  refine ⟨he, ?_⟩
  unfold runApp
  simp [he]

/-- Witness for C6 at the concrete marker-free input
    `https://host/a.json`. -/
theorem missing_marker_fatal_witness :
    strContains "https://host/a.json" extMarker = false ∧
    extract_real_stac_url "https://host/a.json" = none ∧
    runApp [] "https://host/a.json" = none := by
  have h := missing_marker_fatal ([] : Graph) "https://host/a.json" (by decide)
  exact ⟨by decide, h.1, h.2⟩

/-- C2 counterexample: in the two-link run the claim's "b.json is not
    fetched" fails — `crawl_stac` invokes `generate_tiff_url` on the `item`
    link, whose `requests.get` fetches `b.json` (logged in `derivFetched`). -/
theorem item_link_fetched_by_derivation :
    (crawl_stac twoLinkGraph "https://h/r.json").derivFetched =
      ["https://h/b.json"] := by decide

/-- C2 (amended): the discovered sequence is `[abs(b.json), abs(c.json)]` in
    order and `crawl_stac` itself fetches exactly the root and `c.json`
    (it does not recurse into `b.json`), but asset derivation fetches
    `b.json` once during the run. -/
theorem crawl_two_link_run :
    (crawl_stac twoLinkGraph "https://h/r.json").all_links =
        ["https://h/b.json", "https://h/c.json"] ∧
    (crawl_stac twoLinkGraph "https://h/r.json").fetched =
        ["https://h/r.json", "https://h/c.json"] ∧
    (crawl_stac twoLinkGraph "https://h/r.json").derivFetched =
        ["https://h/b.json"] :=
  ⟨by decide, by decide, by decide⟩

/-- C7: when fetching `c.json` fails, the crawler records the per-URL
    warning, the root's `b.json` entry still appears in the output sequence
    (`all_links`), and the run completes normally — the failure only
    terminates that branch. -/
theorem fetch_failure_isolated :
    (crawl_stac failCGraph "https://h/r.json").all_links =
        ["https://h/b.json", "https://h/c.json"] ∧
    (crawl_stac failCGraph "https://h/r.json").warnings =
        ["Failed to fetch https://h/c.json"] ∧
    (crawl_stac failCGraph "https://h/r.json").fetched =
        ["https://h/r.json", "https://h/c.json"] :=
  ⟨by decide, by decide, by decide⟩

/-- C8: an item with no raster assets, all four properties present and an
    `id` shorter than 16 characters synthesizes the fixed template URL with
    the fixed fallback identifier, embedding `X/44/033313123002/2025-01-01`. -/
theorem fallback_template_fixed_id :
    generate_tiff_url fallbackGraph "https://example.com/item.json" =
      (some (tiffTemplate "X" "44" "033313123002" "2025-01-01" fallbackImageId), []) := by
  decide

/-- C9 counterexample: a non-2xx status is a fetch failure that produces no
    warning at all — `generate_tiff_url` just returns `None` — refuting
    "any fetch or parse failure … is reported as a per-item warning". -/
theorem bad_status_yields_no_warning :
    generate_tiff_url badStatusGraph "https://h/i.json" = (none, []) := by decide

/-- C9 (amended): derivation never propagates a failure: a network error or
    a JSON decode failure is caught and reported as the per-item warning and
    yields no result; a non-2xx status also yields no result but silently,
    with no warning. -/
theorem derivation_failure_isolated (g : Graph) (url : String) :
    (fetchOf g url = .netErr → generate_tiff_url g url = (none, [genWarn url])) ∧
    (fetchOf g url = .badJson → generate_tiff_url g url = (none, [genWarn url])) ∧
    (fetchOf g url = .badStatus → generate_tiff_url g url = (none, [])) := by
  refine ⟨fun h => ?_, fun h => ?_, fun h => ?_⟩ <;>
    · unfold generate_tiff_url
      rw [h]

/-- Witness for C9 (amended): an unknown URL is a network error, so the
    warning is emitted and no result is produced. -/
theorem derivation_failure_isolated_witness :
    fetchOf [] "https://h/x.json" = .netErr ∧
    generate_tiff_url [] "https://h/x.json" =
      (none, [genWarn "https://h/x.json"]) :=
  ⟨rfl, (derivation_failure_isolated [] "https://h/x.json").1 rfl⟩

/-- C3 counterexample: with two preferred assets `visual_a` (href `a.tif`)
    then `visual_b` (href `b.tif`), the code returns the absolute form of
    `b.tif` — the *last*-encountered preferred asset — not the
    first-encountered one `a.tif`. -/
theorem last_visual_wins_counterexample :
    generate_tiff_url twoVisualGraph "https://h/item.json" =
        (some "https://h/b.tif", []) ∧
    ("https://h/b.tif" : String) ≠ "https://h/a.tif" ∧
    resolve_relative_url "https://h/item.json" "a.tif" = "https://h/a.tif" :=
  ⟨by decide, by decide, by decide⟩

/-- C4 counterexample: `propsDoc` supplies `grid = "44"` in its properties,
    yet at the URL `https://h/55/item.json` the synthesized URL embeds the
    two-digit path segment `55` — the URL pattern match runs even though the
    properties supplied the component, and overwrites it. -/
theorem url_overrides_properties_counterexample :
    List.lookup "grid" propsDoc.properties = some "44" ∧
    generate_tiff_url overrideGraph "https://h/55/item.json" =
      (some (tiffTemplate "X" "55" "033313123002" "2025-01-01" fallbackImageId), []) :=
  ⟨by decide, by decide⟩

/-- C10 counterexample: for the absolute item URL `https://h/item.json`
    whose only raster asset href carries an `ftp` scheme, derivation returns
    `ftp://e/x.tif`, which is not an http(s) URL. -/
theorem non_http_result_counterexample :
    pyStartsWith "https://h/item.json" "https://" = true ∧
    generate_tiff_url ftpAssetGraph "https://h/item.json" =
      (some "ftp://e/x.tif", []) ∧
    (pyStartsWith "ftp://e/x.tif" "http://" ||
      pyStartsWith "ftp://e/x.tif" "https://") = false :=
  ⟨by decide, by decide, by decide⟩

theorem lastOr_cons (x : String) (l : List String) (init : Option String) :
    lastOr (x :: l) init = lastOr l (some x) := by
  cases l with
  | nil => rfl
  | cons y ys =>
    cases h : (y :: ys).getLast? with
    | none => exact absurd h (by simp [List.getLast?_eq_none_iff])
    | some z =>
      unfold lastOr
      rw [List.getLast?_cons_cons, h]

/-- C4 (amended): the four fallback components start from the properties
    values, but the URL-path pattern loop always runs and each matching path
    segment overwrites its component, the last match winning; the initial
    (properties) value is used only when no path segment matches. -/
theorem urlLoop_last_match_wins (parts : List String)
    (ev gr ti da : Option String) :
    urlLoop parts (ev, gr, ti, da) =
      (lastOr (eventCands parts) ev, lastOr (parts.filter gridTest) gr,
       lastOr (parts.filter tileTest) ti, lastOr (parts.filter dateStart) da) := by
  induction parts generalizing ev gr ti da with
  | nil => rfl
  | cons p rest ih =>
    simp only [urlLoop]
    rw [ih]
    simp only [eventCands, List.filter_cons, Prod.mk.injEq]
    refine ⟨?_, ?_, ?_, ?_⟩
    · by_cases hc : (strContains p "events" && !rest.isEmpty) = true
      · simp [hc, lastOr_cons]
      · simp [hc]
    · by_cases hc : gridTest p = true
      · simp [hc, lastOr_cons]
      · simp [hc]
    · by_cases hc : tileTest p = true
      · simp [hc, lastOr_cons]
      · simp [hc]
    · by_cases hc : dateStart p = true
      · simp [hc, lastOr_cons]
      · simp [hc]

theorem buildVisualAux_split (base : String) :
    ∀ (assets : List (String × Asset)) (acc : List String),
      buildVisualAux base assets acc =
        ((prefAssets assets).map (absHrefOf base)).reverse ++ acc ++
          ((nonprefAssets assets).map (absHrefOf base)) := by
  intro assets
  induction assets with
  | nil =>
    intro acc
    simp [buildVisualAux, prefAssets, nonprefAssets, rasterAssets]
  | cons p rest ih =>
    intro acc
    obtain ⟨asset_name, asset_info⟩ := p
    simp only [buildVisualAux, prefAssets, nonprefAssets, rasterAssets,
      List.filter_cons] at *
    by_cases htif : tifCheck asset_info.href = true
    · by_cases hpref : isPreferred asset_name = true
      · simp only [htif, hpref, if_pos, Bool.not_true, if_neg, ih,
          Bool.false_eq_true, not_false_eq_true, ite_true, ite_false,
          List.filter_cons, List.map_cons, List.reverse_cons, absHrefOf]
        simp [List.append_assoc]
      · simp only [htif, hpref, ih, List.filter_cons, List.map_cons,
          absHrefOf, Bool.not_false, ite_true, ite_false,
          Bool.false_eq_true, List.map_nil]
        simp [hpref, List.append_assoc]
    · simp [htif, ih]

theorem filter_all_neg {α : Type} (p : α → Bool) :
    ∀ l : List α, l.filter p = [] → l.filter (fun x => !(p x)) = l := by
  intro l h
  induction l with
  | nil => rfl
  | cons x xs ih =>
    rw [List.filter_cons] at h ⊢
    by_cases hx : p x = true
    · rw [if_pos hx] at h
      exact absurd h (by simp)
    · rw [if_neg hx] at h
      have hx' : (!(p x)) = true := by simp [Bool.eq_false_iff.mpr hx]
      rw [if_pos hx']
      rw [ih h]

/-- C3 (amended): among an item's raster assets, any preferred
    (`visual`/`rgb`/`natural`) asset is ranked above every non-preferred one,
    but among several preferred candidates the *last*-encountered one wins
    (each is inserted at the front of the candidate list); when no candidate
    is preferred, the first-encountered raster asset wins; the winner's
    absolute URL is returned. -/
theorem generate_tiff_ranking (g : Graph) (url : String) (d : Doc)
    (hf : fetchOf g url = .ok d) (ht : d.type = some "Feature")
    (hs : pyTruthy d.stac_version = true) :
    (∀ ps p, prefAssets d.assets = ps ++ [p] →
        generate_tiff_url g url = (some (absHrefOf url p), [])) ∧
    (prefAssets d.assets = [] → ∀ q qs, rasterAssets d.assets = q :: qs →
        generate_tiff_url g url = (some (absHrefOf url q), [])) := by
  have hcond : (d.type == some "Feature" && pyTruthy d.stac_version) = true := by
    simp [ht, hs]
  constructor
  · intro ps p hdec
    unfold generate_tiff_url
    rw [hf]
    simp only [hcond, if_pos]
    rw [buildVisualAux_split url d.assets [], hdec]
    simp
  · intro hnone q qs hras
    unfold generate_tiff_url
    rw [hf]
    simp only [hcond, if_pos]
    rw [buildVisualAux_split url d.assets []]
    have hnonpref : nonprefAssets d.assets = q :: qs := by
      unfold nonprefAssets
      unfold prefAssets at hnone
      rw [filter_all_neg _ _ hnone, hras]
    rw [hnone, hnonpref]
    simp

/-- Witness for C3 (amended) on `twoVisualDoc`: the preferred list is
    `[visual_a, visual_b]` and the returned URL is the absolute href of the
    last preferred asset `visual_b`. -/
theorem generate_tiff_ranking_witness :
    prefAssets twoVisualDoc.assets =
      [("visual_a", { href := "a.tif" }), ("visual_b", { href := "b.tif" })] ∧
    generate_tiff_url twoVisualGraph "https://h/item.json" =
      (some (absHrefOf "https://h/item.json"
        ("visual_b", ({ href := "b.tif" } : Asset))), []) := by
  refine ⟨by decide, ?_⟩
  exact (generate_tiff_ranking twoVisualGraph "https://h/item.json" twoVisualDoc
      rfl rfl rfl).1 [("visual_a", { href := "a.tif" })]
      ("visual_b", { href := "b.tif" }) (by decide)

theorem prefixOfAppend {α : Type} (l t : List α) : l <+: l ++ t := ⟨t, rfl⟩

theorem prefixOfSelf {α : Type} (l : List α) : l <+: l := ⟨[], List.append_nil l⟩

theorem memOfPre {α : Type} {l l' : List α} (h : l <+: l') {a : α} (ha : a ∈ l) :
    a ∈ l' := by
  obtain ⟨t, rfl⟩ := h
  exact List.mem_append_left t ha

theorem discoverEffect_visited (g : Graph) (rel : Option String) (a : String)
    (st : CrawlState) : (discoverEffect g rel a st).visited = st.visited := by
  unfold discoverEffect
  by_cases h1 : a ∈ st.all_links <;>
    by_cases h2 : rel = some "item" <;>
      cases hgen : (generate_tiff_url g a).1 <;>
        simp [h1, h2, hgen]

theorem discoverEffect_fetched (g : Graph) (rel : Option String) (a : String)
    (st : CrawlState) : (discoverEffect g rel a st).fetched = st.fetched := by
  unfold discoverEffect
  by_cases h1 : a ∈ st.all_links <;>
    by_cases h2 : rel = some "item" <;>
      cases hgen : (generate_tiff_url g a).1 <;>
        simp [h1, h2, hgen]

theorem linksStep_visited_grows (g : Graph) (recurse : String → CrawlState → CrawlState)
    (hrec : ∀ u s, s.visited <+: (recurse u s).visited) :
    ∀ (ls : List Link) (url : String) (st : CrawlState),
      st.visited <+: (linksStep g recurse ls url st).visited := by
  intro ls
  induction ls with
  | nil => intro url st; exact prefixOfSelf _
  | cons link rest ih =>
    intro url st
    rw [linksStep]
    refine List.IsPrefix.trans ?_ (ih url _)
    cases hh : link.href with
    | none => exact prefixOfSelf _
    | some href =>
      by_cases h0 : (href == "") = true <;>
        by_cases hi : (link.rel == some "item") = true <;>
          by_cases hc : (link.rel == some "collection") = true <;>
            simp only [h0, hi, hc, Bool.or_true, Bool.or_false, Bool.true_or,
              Bool.false_or, Bool.false_eq_true, if_true, if_false,
              ite_true, ite_false, Bool.not_eq_true] <;>
            first
              | exact prefixOfSelf _
              | (rw [discoverEffect_visited])
              | (have hx := hrec (urljoin url href)
                    (discoverEffect g link.rel (urljoin url href) st)
                 rw [discoverEffect_visited] at hx
                 exact hx)

theorem linksStep_fetched_grows (g : Graph) (recurse : String → CrawlState → CrawlState)
    (hrec : ∀ u s, s.fetched <+: (recurse u s).fetched) :
    ∀ (ls : List Link) (url : String) (st : CrawlState),
      st.fetched <+: (linksStep g recurse ls url st).fetched := by
  intro ls
  induction ls with
  | nil => intro url st; exact prefixOfSelf _
  | cons link rest ih =>
    intro url st
    rw [linksStep]
    refine List.IsPrefix.trans ?_ (ih url _)
    cases hh : link.href with
    | none => exact prefixOfSelf _
    | some href =>
      by_cases h0 : (href == "") = true <;>
        by_cases hi : (link.rel == some "item") = true <;>
          by_cases hc : (link.rel == some "collection") = true <;>
            simp only [h0, hi, hc, Bool.or_true, Bool.or_false, Bool.true_or,
              Bool.false_or, Bool.false_eq_true, if_true, if_false,
              ite_true, ite_false, Bool.not_eq_true] <;>
            first
              | exact prefixOfSelf _
              | (rw [discoverEffect_fetched])
              | (have hx := hrec (urljoin url href)
                    (discoverEffect g link.rel (urljoin url href) st)
                 rw [discoverEffect_fetched] at hx
                 exact hx)

theorem crawlF_visited_grows (g : Graph) :
    ∀ (fuel : Nat) (url : String) (st : CrawlState),
      st.visited <+: (crawlF g fuel url st).visited := by
  intro fuel
  induction fuel with
  | zero => intro url st; exact prefixOfSelf _
  | succ f ih =>
    intro url st
    rw [crawlF]
    by_cases h1 : st.visited.contains url = true
    · simp only [h1, if_true]
      exact prefixOfSelf _
    · simp only [h1, Bool.false_eq_true, if_false]
      cases hfetch : fetchOf g url with
      | ok d =>
        exact List.IsPrefix.trans (prefixOfAppend st.visited [url])
          (linksStep_visited_grows g _ ih d.links url
            { st with visited := st.visited ++ [url], fetched := st.fetched ++ [url] })
      | badStatus => exact prefixOfAppend st.visited [url]
      | netErr => exact prefixOfAppend st.visited [url]
      | badJson => exact prefixOfAppend st.visited [url]

theorem crawlF_fetched_grows (g : Graph) :
    ∀ (fuel : Nat) (url : String) (st : CrawlState),
      st.fetched <+: (crawlF g fuel url st).fetched := by
  intro fuel
  induction fuel with
  | zero => intro url st; exact prefixOfSelf _
  | succ f ih =>
    intro url st
    rw [crawlF]
    by_cases h1 : st.visited.contains url = true
    · simp only [h1, if_true]
      exact prefixOfSelf _
    · simp only [h1, Bool.false_eq_true, if_false]
      cases hfetch : fetchOf g url with
      | ok d =>
        exact List.IsPrefix.trans (prefixOfAppend st.fetched [url])
          (linksStep_fetched_grows g _ ih d.links url
            { st with visited := st.visited ++ [url], fetched := st.fetched ++ [url] })
      | badStatus => exact prefixOfAppend st.fetched [url]
      | netErr => exact prefixOfAppend st.fetched [url]
      | badJson => exact prefixOfAppend st.fetched [url]

theorem fetchInvOfFields {s t : CrawlState} (hv : t.visited = s.visited)
    (hf : t.fetched = s.fetched) (h : FetchInv s) : FetchInv t := by
  unfold FetchInv at *
  rw [hv, hf]
  exact h

theorem linksStep_inv (g : Graph) (recurse : String → CrawlState → CrawlState)
    (hrec : ∀ u s, FetchInv s → FetchInv (recurse u s)) :
    ∀ (ls : List Link) (url : String) (st : CrawlState),
      FetchInv st → FetchInv (linksStep g recurse ls url st) := by
  intro ls
  induction ls with
  | nil => intro url st h; exact h
  | cons link rest ih =>
    intro url st h
    rw [linksStep]
    refine ih url _ ?_
    cases hh : link.href with
    | none => exact h
    | some href =>
      by_cases h0 : (href == "") = true <;>
        by_cases hi : (link.rel == some "item") = true <;>
          by_cases hc : (link.rel == some "collection") = true <;>
            simp only [h0, hi, hc, Bool.or_true, Bool.or_false, Bool.true_or,
              Bool.false_or, Bool.false_eq_true, if_true, if_false,
              ite_true, ite_false] <;>
            first
              | exact h
              | exact fetchInvOfFields
                  (discoverEffect_visited g link.rel (urljoin url href) st)
                  (discoverEffect_fetched g link.rel (urljoin url href) st) h
              | exact hrec _ _ (fetchInvOfFields
                  (discoverEffect_visited g link.rel (urljoin url href) st)
                  (discoverEffect_fetched g link.rel (urljoin url href) st) h)

theorem crawlF_inv (g : Graph) :
    ∀ (fuel : Nat) (url : String) (st : CrawlState),
      FetchInv st → FetchInv (crawlF g fuel url st) := by
  intro fuel
  induction fuel with
  | zero => intro url st h; exact h
  | succ f ih =>
    intro url st h
    rw [crawlF]
    by_cases h1 : st.visited.contains url = true
    · simp only [h1, if_true]
      exact h
    · simp only [h1, Bool.false_eq_true, if_false]
      have hnv : url ∉ st.visited := fun hm => h1 (List.elem_iff.mpr hm)
      have hst1 : FetchInv
          { st with visited := st.visited ++ [url], fetched := st.fetched ++ [url] } := by
        obtain ⟨hnd, hsub⟩ := h
        refine ⟨?_, ?_⟩
        · have hnf : url ∉ st.fetched := fun hm => hnv (hsub url hm)
          simp [List.nodup_append, hnd, hnf]
        · intro u hu
          rcases List.mem_append.mp hu with hu1 | hu2
          · exact List.mem_append_left _ (hsub u hu1)
          · exact List.mem_append_right _ hu2
      cases hfetch : fetchOf g url with
      | ok d => exact linksStep_inv g _ ih d.links url _ hst1
      | badStatus => exact fetchInvOfFields rfl rfl hst1
      | netErr => exact fetchInvOfFields rfl rfl hst1
      | badJson => exact fetchInvOfFields rfl rfl hst1

theorem unvisited_le_of_grow (g : Graph) {v v2 : List String} (h : v <+: v2) :
    unvisitedCount g v2 ≤ unvisitedCount g v := by
  apply Finset.card_le_card
  intro k hk
  simp only [Finset.mem_filter] at hk ⊢
  exact ⟨hk.1, fun hm => hk.2 (memOfPre h hm)⟩

theorem unvisited_decrease (g : Graph) {v : List String} {url : String}
    (hkey : url ∈ g.map Prod.fst) (hnv : url ∉ v) :
    unvisitedCount g (v ++ [url]) < unvisitedCount g v := by
  apply Finset.card_lt_card
  rw [Finset.ssubset_iff_of_subset]
  · exact ⟨url, by simp [Finset.mem_filter, List.mem_toFinset, hkey, hnv],
      by simp [Finset.mem_filter]⟩
  · intro k hk
    simp only [Finset.mem_filter] at hk ⊢
    exact ⟨hk.1, fun hm => hk.2 (List.mem_append_left _ hm)⟩

theorem unvisited_le_len (g : Graph) (v : List String) :
    unvisitedCount g v ≤ g.length := by
  refine le_trans (Finset.card_filter_le _ _) (le_trans (List.toFinset_card_le _) ?_)
  simp

theorem lookup_some_key {β : Type} : ∀ (l : List (String × β)) (k : String) (v : β),
    List.lookup k l = some v → k ∈ l.map Prod.fst := by
  intro l
  induction l with
  | nil => intro k v h; cases h
  | cons p rest ih =>
    intro k v h
    obtain ⟨a, b⟩ := p
    rw [List.lookup] at h
    cases hk : k == a with
    | true =>
      simp only [List.map_cons, List.mem_cons]
      exact Or.inl (eq_of_beq hk)
    | false =>
      simp only [hk] at h
      simp only [List.map_cons, List.mem_cons]
      exact Or.inr (ih k v h)

theorem fetchOf_ok_key (g : Graph) (url : String) (d : Doc)
    (h : fetchOf g url = .ok d) : url ∈ g.map Prod.fst := by
  unfold fetchOf at h
  cases hl : List.lookup url g with
  | none =>
    rw [hl] at h
    simp [Option.getD] at h
  | some r => exact lookup_some_key g url r hl

theorem crawlF_mu_le (g : Graph) (f : Nat) (url : String) (st : CrawlState) :
    unvisitedCount g (crawlF g f url st).visited ≤ unvisitedCount g st.visited :=
  unvisited_le_of_grow g (crawlF_visited_grows g f url st)

theorem linksStep_congr (g : Graph) (r1 r2 : String → CrawlState → CrawlState) (B : Nat)
    (hagree : ∀ u s, unvisitedCount g s.visited < B → r1 u s = r2 u s)
    (hmu : ∀ u s, unvisitedCount g (r1 u s).visited ≤ unvisitedCount g s.visited) :
    ∀ (ls : List Link) (url : String) (st : CrawlState),
      unvisitedCount g st.visited < B →
      linksStep g r1 ls url st = linksStep g r2 ls url st := by
  intro ls
  induction ls with
  | nil => intro url st h; rfl
  | cons link rest ih =>
    intro url st hB
    rw [linksStep, linksStep]
    cases hh : link.href with
    | none => exact ih url st hB
    | some href =>
      by_cases h0 : (href == "") = true
      · simp only [h0, if_true, ite_true]
        exact ih url st hB
      · by_cases hi : (link.rel == some "item") = true <;>
          by_cases hc : (link.rel == some "collection") = true <;>
            simp only [h0, hi, hc, Bool.or_true, Bool.or_false, Bool.true_or,
              Bool.false_or, Bool.false_eq_true, if_true, if_false,
              ite_true, ite_false] <;>
          first
            | exact ih url st hB
            | (refine ih url _ ?_
               rw [discoverEffect_visited]
               exact hB)
            | (have hμ2 : unvisitedCount g
                   (discoverEffect g link.rel (urljoin url href) st).visited < B := by
                 rw [discoverEffect_visited]
                 exact hB
               have heq := hagree (urljoin url href)
                 (discoverEffect g link.rel (urljoin url href) st) hμ2
               rw [heq]
               refine ih url _ ?_
               rw [← heq]
               calc unvisitedCount g
                     (r1 (urljoin url href)
                       (discoverEffect g link.rel (urljoin url href) st)).visited
                   ≤ unvisitedCount g
                       (discoverEffect g link.rel (urljoin url href) st).visited :=
                     hmu _ _
                 _ = unvisitedCount g st.visited := by rw [discoverEffect_visited]
                 _ < B := hB)

theorem crawlF_stable (g : Graph) :
    ∀ (f : Nat) (url : String) (st : CrawlState),
      unvisitedCount g st.visited < f → crawlF g f url st = crawlF g (f + 1) url st := by
  intro f
  induction f with
  | zero => intro url st h; exact absurd h (Nat.not_lt_zero _)
  | succ f ih =>
    intro url st h
    conv_lhs => rw [crawlF]
    conv_rhs => rw [crawlF]
    by_cases h1 : st.visited.contains url = true
    · simp only [h1, if_true]
    · simp only [h1, Bool.false_eq_true, if_false]
      cases hfetch : fetchOf g url with
      | ok d =>
        refine linksStep_congr g (crawlF g f) (crawlF g (f + 1)) f ih
          (fun u s => crawlF_mu_le g f u s) d.links url _ ?_
        have hkey := fetchOf_ok_key g url d hfetch
        have hnv : url ∉ st.visited := fun hm => h1 (List.elem_iff.mpr hm)
        have hdec := unvisited_decrease g hkey hnv
        have hle : unvisitedCount g st.visited ≤ f := Nat.lt_succ_iff.mp h
        show unvisitedCount g (st.visited ++ [url]) < f
        omega
      | badStatus => rfl
      | netErr => rfl
      | badJson => rfl

theorem crawlF_ge_stable (g : Graph) (url : String) :
    ∀ f, g.length + 1 ≤ f → crawlF g f url initState = crawl_stac g url := by
  intro f
  induction f with
  | zero => intro h; exact absurd h (by omega)
  | succ f ih =>
    intro h
    rcases Nat.eq_or_lt_of_le h with heq | hlt
    · rw [crawl_stac, heq]
    · have hf : g.length + 1 ≤ f := Nat.lt_succ_iff.mp hlt
      have hμ : unvisitedCount g initState.visited < f := by
        have h1 := unvisited_le_len g ([] : List String)
        have h2 : unvisitedCount g initState.visited = unvisitedCount g [] := rfl
        omega
      rw [← crawlF_stable g f url initState hμ]
      exact ih hf

/-- C1: for every oracle and start URL, the crawl terminates (its result is
    stable under any sufficient fuel), no URL is ever passed to the crawler's
    `requests.get` twice (`fetched.Nodup`), the start URL is fetched, and
    every fetched URL had been added to the shared visited set. -/
theorem crawl_cycle_safe (g : Graph) (A : String) :
    (∀ f, g.length + 1 ≤ f → crawlF g f A initState = crawl_stac g A) ∧
    (crawl_stac g A).fetched.Nodup ∧
    A ∈ (crawl_stac g A).fetched ∧
    (∀ u ∈ (crawl_stac g A).fetched, u ∈ (crawl_stac g A).visited) := by
  have hinv : FetchInv (crawl_stac g A) :=
    crawlF_inv g (g.length + 1) A initState ⟨List.nodup_nil, by simp [initState]⟩
  refine ⟨crawlF_ge_stable g A, hinv.1, ?_, hinv.2⟩
  show A ∈ (crawlF g (g.length + 1) A initState).fetched
  rw [crawlF]
  have h1 : initState.visited.contains A = false := rfl
  simp only [h1, Bool.false_eq_true, if_false]
  cases hfetch : fetchOf g A with
  | ok d =>
    refine memOfPre (linksStep_fetched_grows g _ (crawlF_fetched_grows g _) d.links A
      { initState with visited := [A], fetched := [A] }) ?_
    simp
  | badStatus => simp
  | netErr => simp
  | badJson => simp

/-- Witness for C1 on the explicit two-document collection cycle
    `a.json → b.json → a.json`: the crawl visits each of the two URLs exactly
    once and the result is already stable at fuel 3 and 10. -/
theorem crawl_cycle_safe_witness :
    (crawlF cycGraph 3 "https://h/a.json" initState =
        crawl_stac cycGraph "https://h/a.json" ∧
      crawlF cycGraph 10 "https://h/a.json" initState =
        crawl_stac cycGraph "https://h/a.json") ∧
    (crawl_stac cycGraph "https://h/a.json").fetched.Nodup ∧
    "https://h/a.json" ∈ (crawl_stac cycGraph "https://h/a.json").fetched ∧
    (crawl_stac cycGraph "https://h/a.json").fetched =
      ["https://h/a.json", "https://h/b.json"] := by
  have h := crawl_cycle_safe cycGraph "https://h/a.json"
  exact ⟨⟨h.1 3 (by decide), h.1 10 (by decide)⟩, h.2.1, h.2.2.1, by decide⟩

theorem sufxRefl {α : Type} (l : List α) : l <:+ l := ⟨[], rfl⟩

theorem sufxAppendRight {α : Type} (l t : List α) : l <:+ t ++ l := ⟨t, rfl⟩

theorem sufxExtendLeft {α : Type} {s b : List α} (h : s <:+ b) (a : List α) :
    s <:+ a ++ b := by
  obtain ⟨t, rfl⟩ := h
  exact ⟨a ++ t, by rw [List.append_assoc]⟩

theorem memOfSufx {α : Type} {l l2 : List α} (h : l <:+ l2) {a : α} (ha : a ∈ l) :
    a ∈ l2 := by
  obtain ⟨t, rfl⟩ := h
  exact List.mem_append_right t ha

theorem preExtend {α : Type} {p a : List α} (h : p <+: a) (b : List α) :
    p <+: a ++ b := by
  obtain ⟨t, rfl⟩ := h
  exact ⟨t ++ b, by rw [List.append_assoc]⟩

theorem sufx_cons_cases {α : Type} {s rest : List α} {a : α} (h : s <:+ a :: rest) :
    s = a :: rest ∨ s <:+ rest := by
  obtain ⟨t, ht⟩ := h
  cases t with
  | nil => left; simpa using ht
  | cons b bs =>
    right
    refine ⟨bs, ?_⟩
    injection ht

theorem sufx_comparable {α : Type} :
    ∀ (l s1 s2 : List α), s1 <:+ l → s2 <:+ l → s1 <:+ s2 ∨ s2 <:+ s1 := by
  intro l
  induction l with
  | nil =>
    intro s1 s2 h1 h2
    rw [List.suffix_nil.mp h1]
    exact Or.inl ⟨s2, by simp⟩
  | cons a rest ih =>
    intro s1 s2 h1 h2
    rcases sufx_cons_cases h1 with rfl | hs1
    · rcases sufx_cons_cases h2 with rfl | hs2
      · exact Or.inl (sufxRefl _)
      · right
        obtain ⟨t, rfl⟩ := hs2
        exact ⟨a :: t, rfl⟩
    · rcases sufx_cons_cases h2 with rfl | hs2
      · left
        obtain ⟨t, rfl⟩ := hs1
        exact ⟨a :: t, rfl⟩
      · exact ih s1 s2 hs1 hs2

theorem append_cancel_of_eq {α : Type} :
    ∀ {a b c : List α}, a ++ c = b ++ c → a = b := by
  intro a b c h
  have hl : a.length = b.length := by
    have := congrArg List.length h
    simp only [List.length_append] at this
    omega
  have := congrArg (fun l => List.take a.length l) h
  simpa [List.take_left, hl, List.take_left] using this

theorem sufx_append_cancel {α : Type} {z y hd : List α} (hs : z ++ y <:+ hd ++ y) :
    z <:+ hd := by
  obtain ⟨t, ht⟩ := hs
  refine ⟨t, ?_⟩
  apply append_cancel_of_eq (c := y)
  rw [← List.append_assoc] at ht
  exact ht

theorem getLastD_irrel {α : Type} {l : List α} (h : l ≠ []) (d e : α) :
    l.getLastD d = l.getLastD e := by
  cases l with
  | nil => exact absurd rfl h
  | cons a t => rfl

theorem getLastD_append_right {α : Type} :
    ∀ (t s : List α), s ≠ [] → ∀ d, (t ++ s).getLastD d = s.getLastD d := by
  intro t
  induction t with
  | nil => intro s h d; rfl
  | cons a t ih =>
    intro s h d
    rw [List.cons_append, List.getLastD_cons]
    rw [ih s h a, getLastD_irrel h a d]

theorem getLastD_mem {α : Type} : ∀ (l : List α), l ≠ [] → ∀ d, l.getLastD d ∈ l := by
  intro l
  induction l with
  | nil => intro h; exact absurd rfl h
  | cons a t ih =>
    intro _ d
    rw [List.getLastD_cons]
    by_cases ht : t = []
    · subst ht; simp
    · exact List.mem_cons_of_mem a (ih ht a)

theorem concat_getLastD {α : Type} (d : α) :
    ∀ (l : List α), l ≠ [] → ∃ m, l = m ++ [l.getLastD d] := by
  intro l
  induction l with
  | nil => intro h; exact absurd rfl h
  | cons a t ih =>
    intro _
    by_cases hte : t = []
    · subst hte
      exact ⟨[], rfl⟩
    · obtain ⟨m, hm⟩ := ih hte
      refine ⟨a :: m, ?_⟩
      have h1 : (a :: t).getLastD d = t.getLastD d := by
        rw [List.getLastD_cons]
        exact getLastD_irrel hte a d
      rw [h1, List.cons_append, ← hm]

theorem sufx_getLastD {α : Type} {suf z : List α} (h : suf <:+ z) (hne : suf ≠ [])
    (d : α) : z.getLastD d = suf.getLastD d := by
  obtain ⟨t, rfl⟩ := h
  exact getLastD_append_right t suf hne d

theorem sufx_chop {α : Type} {suf hd y : List α} (hs : suf <:+ hd ++ y)
    {c0 : α} (hlast : ∀ d, hd.getLastD d = c0) (hnotin : c0 ∉ suf) : suf <:+ y := by
  rcases sufx_comparable (hd ++ y) suf y hs (sufxAppendRight y hd) with h | h
  · exact h
  · obtain ⟨z, rfl⟩ := h
    have hz := sufx_append_cancel hs
    cases hzz : z with
    | nil => simp
    | cons b bs =>
      exfalso
      have hzne : z ≠ [] := by simp [hzz]
      obtain ⟨w, hw⟩ := hz
      have h1 : z.getLastD b = c0 := by
        rw [← getLastD_append_right w z hzne b, hw]
        exact hlast b
      have hzl : z.getLastD b ∈ z := getLastD_mem z hzne b
      exact hnotin (h1 ▸ List.mem_append_left y hzl)

theorem isPrefixOfEq {α : Type} [BEq α] [LawfulBEq α] :
    ∀ (p l : List α), p.isPrefixOf l = true ↔ p <+: l := by
  intro p
  induction p with
  | nil =>
    intro l
    simp [List.isPrefixOf]
  | cons a ps ih =>
    intro l
    cases l with
    | nil => simp [List.isPrefixOf]
    | cons b ls =>
      simp only [List.isPrefixOf, Bool.and_eq_true, beq_iff_eq, ih]
      constructor
      · rintro ⟨rfl, ⟨t, rfl⟩⟩
        exact ⟨t, rfl⟩
      · rintro ⟨t, ht⟩
        injection ht with h1 h2
        exact ⟨h1, ⟨t, h2⟩⟩

theorem reversePreSufx {α : Type} (l l2 : List α) :
    l.reverse <+: l2.reverse ↔ l <:+ l2 := by
  constructor
  · rintro ⟨t, ht⟩
    refine ⟨t.reverse, ?_⟩
    have := congrArg List.reverse ht
    simpa [List.reverse_append] using this
  · rintro ⟨t, rfl⟩
    exact ⟨t.reverse, by simp [List.reverse_append]⟩

theorem isSuffixOfEq {α : Type} [BEq α] [LawfulBEq α] (p l : List α) :
    p.isSuffixOf l = true ↔ p <:+ l := by
  rw [List.isSuffixOf, isPrefixOfEq, reversePreSufx]

theorem strEndsWithEq (s p : String) :
    strEndsWith s p = true ↔ p.data <:+ s.data := by
  rw [strEndsWith, isSuffixOfEq]

theorem pyStartsWithEq (s p : String) :
    pyStartsWith s p = true ↔ p.data <+: s.data := by
  rw [pyStartsWith, isPrefixOfEq]

theorem strDataAppend (a b : String) : (a ++ b).data = a.data ++ b.data := rfl

theorem startsPair (c1 c2 : Char) (s : String)
    (h : pyStartsWith s ⟨[c1, c2]⟩ = true) : ∃ t, s.data = c1 :: c2 :: t := by
  rw [pyStartsWithEq] at h
  obtain ⟨t, ht⟩ := h
  exact ⟨t, ht.symm⟩

theorem takeWhileColon :
    ∀ (l : List Char), (l.takeWhile (fun c => c != ':')).length < l.length →
      l = l.takeWhile (fun c => c != ':') ++
        ':' :: l.drop ((l.takeWhile (fun c => c != ':')).length + 1) := by
  intro l
  induction l with
  | nil => intro h; simp at h
  | cons c rest ih =>
    intro h
    rw [List.takeWhile_cons] at h ⊢
    by_cases hc : (c != ':') = true
    · simp only [hc, if_true, List.length_cons, List.drop_succ_cons] at h ⊢
      simp only [List.length_cons, Nat.add_lt_add_iff_right] at h
      have h2 := ih h
      calc c :: rest
          = c :: (rest.takeWhile (fun c => c != ':') ++
              ':' :: rest.drop ((rest.takeWhile (fun c => c != ':')).length + 1)) := by
            rw [← h2]
        _ = _ := by simp
    · have hc2 : c = ':' := by
        simp only [bne_iff_ne, ne_eq, not_not] at hc
        exact hc
      have hcf : (c != ':') = false := by simp [hc2]
      simp only [hcf, if_false, ite_false] at h ⊢
      subst hc2
      simp

theorem splitSchemeParts (s sc r : String) (h : splitScheme s = some (sc, r)) :
    ∃ raw, s.data = (raw ++ [':']) ++ r.data ∧
      (∀ d, (raw ++ [':']).getLastD d = ':') := by
  simp only [splitScheme] at h
  split at h
  case isTrue hcond =>
    rw [Option.some.injEq, Prod.mk.injEq] at h
    obtain ⟨hsc, hr⟩ := h
    have hrd : r.data = s.data.drop ((s.data.takeWhile (fun c => c != ':')).length + 1) := by
      rw [← hr]
    refine ⟨s.data.takeWhile (fun c => c != ':'), ?_, ?_⟩
    · simp only [Bool.and_eq_true, decide_eq_true_eq] at hcond
      have hlen := hcond.1.1.1
      have hdec := takeWhileColon s.data hlen
      rw [hrd, List.append_assoc, List.singleton_append]
      exact hdec
    · intro d
      exact getLastD_append_right _ [':'] (by simp) d
  case isFalse => cases h

theorem dropWhileSlashHead : ∀ (l : List Char),
    l.dropWhile (fun c => c != '/') = [] ∨
      ∃ t, l.dropWhile (fun c => c != '/') = '/' :: t := by
  intro l
  induction l with
  | nil => exact Or.inl rfl
  | cons c rest ih =>
    rw [List.dropWhile_cons]
    by_cases hc : (c != '/') = true
    · simp only [hc, if_true, ite_true]
      exact ih
    · have hc2 : c = '/' := by
        simp only [bne_iff_ne, ne_eq, not_not] at hc
        exact hc
      simp only [hc, Bool.false_eq_true, if_false, ite_false]
      exact Or.inr ⟨rest, by rw [hc2]⟩

theorem splitNetlocParts (s : String) (h : pyStartsWith s "//" = true) :
    s.data = ['/', '/'] ++ ((splitNetloc s).1.data ++ (splitNetloc s).2.data) ∧
      ((splitNetloc s).2.data = [] ∨ ∃ t, (splitNetloc s).2.data = '/' :: t) := by
  have hsh : ∃ t, s.data = '/' :: '/' :: t := startsPair '/' '/' s h
  obtain ⟨t, ht⟩ := hsh
  have hdrop : s.data.drop 2 = t := by rw [ht]; rfl
  unfold splitNetloc
  simp only [h, if_true, ite_true, hdrop]
  constructor
  · rw [ht]
    simp [List.takeWhile_append_dropWhile]
  · exact dropWhileSlashHead t

theorem splitNetlocNoSlash (s : String) (h : pyStartsWith s "//" = false) :
    splitNetloc s = ("", s) := by
  unfold splitNetloc
  simp [h]

theorem splitChar_ne_nil (sep : Char) : ∀ l, splitChar sep l ≠ [] := by
  intro l
  cases l with
  | nil => simp [splitChar]
  | cons c rest =>
    rw [splitChar]
    by_cases h : (c == sep) = true
    · simp [h]
    · simp only [h, Bool.false_eq_true, if_false, ite_false]
      cases hs : splitChar sep rest with
      | nil => simp
      | cons a t => simp

theorem splitChar_no_sep (sep : Char) :
    ∀ l, (∀ c ∈ l, ¬ c = sep) → splitChar sep l = [l] := by
  intro l
  induction l with
  | nil => intro _; rfl
  | cons c rest ih =>
    intro h
    have hc : (c == sep) = false := by
      simp only [beq_eq_false_iff_ne, ne_eq]
      exact h c (List.mem_cons_self c rest)
    rw [splitChar]
    simp only [hc, Bool.false_eq_true, if_false, ite_false]
    rw [ih (fun x hx => h x (List.mem_cons_of_mem c hx))]

theorem splitChar_single (sep : Char) :
    ∀ l x, splitChar sep l = [x] → x = l ∧ sep ∉ l := by
  intro l
  induction l with
  | nil =>
    intro x h
    rw [splitChar] at h
    injection h with h1 _
    exact ⟨h1.symm, by simp⟩
  | cons c rest ih =>
    intro x h
    rw [splitChar] at h
    by_cases hc : (c == sep) = true
    · simp only [hc, if_true, ite_true] at h
      injection h with _ h2
      exact absurd h2 (splitChar_ne_nil sep rest)
    · simp only [hc, Bool.false_eq_true, if_false, ite_false] at h
      cases hs : splitChar sep rest with
      | nil => exact absurd hs (splitChar_ne_nil sep rest)
      | cons a t =>
        simp only [hs] at h
        injection h with h1 h2
        subst h2
        obtain ⟨ha, hns⟩ := ih a hs
        constructor
        · rw [← h1, ha]
        · intro hmem
          rcases List.mem_cons.mp hmem with heq | hm
          · rw [heq] at hc
            simp at hc
          · exact hns hm

theorem sufx_splitChar_last (sep : Char) :
    ∀ (l suf : List Char), suf <:+ l → sep ∉ suf →
      suf <:+ (splitChar sep l).getLastD [] := by
  intro l
  induction l with
  | nil =>
    intro suf h _
    rw [List.suffix_nil.mp h]
    exact ⟨_, List.append_nil _⟩
  | cons c rest ih =>
    intro suf h hns
    rw [splitChar]
    by_cases hc : (c == sep) = true
    · simp only [hc, if_true, ite_true, List.getLastD_cons]
      rcases sufx_cons_cases h with rfl | hs
      · exfalso
        apply hns
        have hceq : c = sep := by simpa using hc
        rw [← hceq]
        exact List.mem_cons_self c rest
      · have hres := ih suf hs hns
        rwa [getLastD_irrel (splitChar_ne_nil sep rest) [] []] at hres
    · simp only [hc, Bool.false_eq_true, if_false, ite_false]
      cases hs : splitChar sep rest with
      | nil => exact absurd hs (splitChar_ne_nil sep rest)
      | cons a t =>
        cases t with
        | nil =>
          obtain ⟨ha, _⟩ := splitChar_single sep rest a hs
          simp only [List.getLastD_cons]
          rw [ha]
          exact h
        | cons b t2 =>
          have hsep : sep ∈ rest := by
            by_contra hno
            have hone := splitChar_no_sep sep rest (fun x hx hxe => hno (hxe ▸ hx))
            rw [hs] at hone
            simp at hone
          rcases sufx_cons_cases h with rfl | hsuf
          · exact absurd (List.mem_cons_of_mem c hsep) hns
          · have hih := ih suf hsuf hns
            rw [hs] at hih
            rw [List.getLastD_cons] at hih ⊢
            rwa [getLastD_irrel (show (b :: t2) ≠ [] by simp) (c :: a) a]

theorem dotResolve_append :
    ∀ (l1 l2 acc : List (List Char)),
      dotResolve (l1 ++ l2) acc = dotResolve l2 (dotResolve l1 acc) := by
  intro l1
  induction l1 with
  | nil => intro l2 acc; rfl
  | cons x xs ih =>
    intro l2 acc
    rw [List.cons_append, dotResolve, dotResolve]
    by_cases h1 : (x == ['.', '.']) = true
    · simp only [h1, if_true, ite_true]
      exact ih l2 _
    · by_cases h2 : (x == ['.']) = true <;>
        simp only [h1, h2, Bool.false_eq_true, if_true, if_false, ite_true, ite_false] <;>
        exact ih l2 _

theorem dotResolve_keep (s : List Char) (h1 : s ≠ ['.', '.']) (h2 : s ≠ ['.'])
    (acc : List (List Char)) : dotResolve [s] acc = acc ++ [s] := by
  rw [dotResolve]
  simp only [beq_iff_eq, h1, h2, if_false, ite_false]
  rfl

theorem getLastD_concat2 {α : Type} (m : List α) (x : α) (d : α) :
    (m ++ [x]).getLastD d = x := by
  rw [getLastD_append_right m [x] (by simp) d]
  rfl

theorem keepLast_concat :
    ∀ (l : List (List Char)) (s : List Char), ∃ m, keepLast (l ++ [s]) = m ++ [s] := by
  intro l
  induction l with
  | nil => intro s; exact ⟨[], rfl⟩
  | cons x xs ih =>
    intro s
    obtain ⟨m, hm⟩ := ih s
    cases xs with
    | nil =>
      have hred : keepLast (x :: [s]) =
          if x == [] then keepLast [s] else x :: keepLast [s] := rfl
      have hone : keepLast [s] = [s] := rfl
      show ∃ m, keepLast (x :: [s]) = m ++ [s]
      rw [hred, hone]
      by_cases hx : (x == []) = true
      · simp only [hx, if_true, ite_true]
        exact ⟨[], rfl⟩
      · simp only [hx, Bool.false_eq_true, if_false, ite_false]
        exact ⟨[x], rfl⟩
    | cons y ys =>
      have hred : keepLast (x :: y :: (ys ++ [s])) =
          if x == [] then keepLast (y :: (ys ++ [s]))
          else x :: keepLast (y :: (ys ++ [s])) := rfl
      show ∃ m, keepLast (x :: y :: (ys ++ [s])) = m ++ [s]
      rw [hred]
      rw [List.cons_append] at hm
      by_cases hx : (x == []) = true
      · simp only [hx, if_true, ite_true]
        exact ⟨m, hm⟩
      · simp only [hx, Bool.false_eq_true, if_false, ite_false]
        exact ⟨x :: m, by rw [hm]; rfl⟩

theorem filterMid_concat :
    ∀ (l : List (List Char)) (s : List Char), ∃ m, filterMid (l ++ [s]) = m ++ [s] := by
  intro l s
  cases l with
  | nil => exact ⟨[], rfl⟩
  | cons x xs =>
    obtain ⟨m, hm⟩ := keepLast_concat xs s
    cases xs with
    | nil =>
      have hred : filterMid (x :: [s]) = x :: keepLast [s] := rfl
      show ∃ m, filterMid (x :: [s]) = m ++ [s]
      rw [hred]
      exact ⟨[x], rfl⟩
    | cons y ys =>
      have hred : filterMid (x :: y :: (ys ++ [s])) =
          x :: keepLast (y :: (ys ++ [s])) := rfl
      show ∃ m2, filterMid (x :: y :: (ys ++ [s])) = m2 ++ [s]
      rw [hred]
      rw [List.cons_append] at hm
      exact ⟨x :: m, by rw [hm]; rfl⟩

theorem joinSlash_ends :
    ∀ (l : List (List Char)) (s : List Char), s <:+ joinSlashC (l ++ [s]) := by
  intro l
  induction l with
  | nil => intro s; exact sufxRefl s
  | cons x xs ih =>
    intro s
    cases xs with
    | nil =>
      have hred : joinSlashC (x :: [s]) = x ++ '/' :: joinSlashC [s] := rfl
      have hone : joinSlashC [s] = s := rfl
      show s <:+ joinSlashC (x :: [s])
      rw [hred, hone]
      exact ⟨x ++ ['/'], by simp⟩
    | cons y ys =>
      have hred : joinSlashC (x :: y :: (ys ++ [s])) =
          x ++ '/' :: joinSlashC (y :: (ys ++ [s])) := rfl
      show s <:+ joinSlashC (x :: y :: (ys ++ [s]))
      rw [hred]
      have hih := ih s
      rw [List.cons_append] at hih
      refine List.IsSuffix.trans hih ⟨x ++ ['/'], ?_⟩
      simp

theorem rel_sub_netloc (sc : String) (h : usesRelative.contains sc = true) :
    usesNetloc.contains sc = true := by
  have hm : sc ∈ usesRelative := List.elem_iff.mp h
  fin_cases hm <;> decide

theorem unsplit_keeps_path (scheme netloc path : String) (suf : List Char)
    (hs : suf <:+ path.data) : suf <:+ (unsplitModel scheme netloc path).data := by
  unfold unsplitModel
  by_cases h1 : (netloc != "" || pyStartsWith path "//") = true <;>
    by_cases h2 : (path != "" && !(pyStartsWith path "/")) = true <;>
      by_cases h3 : (scheme != "") = true <;>
        simp only [h1, h2, h3, if_true, if_false, ite_true, ite_false,
          Bool.false_eq_true] <;>
        first
          | exact sufxExtendLeft (sufxExtendLeft hs ("/").data)
              ("//" ++ netloc).data
          | exact sufxExtendLeft
              (sufxExtendLeft (sufxExtendLeft hs ("/").data) ("//" ++ netloc).data)
              (scheme ++ ":").data
          | exact sufxExtendLeft (sufxExtendLeft hs ("//" ++ netloc).data)
              (scheme ++ ":").data
          | exact sufxExtendLeft hs ("//" ++ netloc).data
          | exact sufxExtendLeft hs (scheme ++ ":").data
          | exact hs

theorem unsplit_keeps_netloc (scheme netloc path : String)
    (hpath : path.data = [] ∨ ∃ t, path.data = '/' :: t)
    (hn : (netloc != "") = true) (suf : List Char)
    (hs : suf <:+ netloc.data ++ path.data) :
    suf <:+ (unsplitModel scheme netloc path).data := by
  have hcond : (path != "" && !(pyStartsWith path "/")) = false := by
    rcases hpath with hp0 | ⟨t, hpt⟩
    · have : path = "" := by
        obtain ⟨pd⟩ := path
        simp only at hp0
        rw [hp0]
      rw [this]
      rfl
    · have : pyStartsWith path "/" = true := by
        rw [pyStartsWithEq]
        exact ⟨t, hpt.symm⟩
      simp [this]
  unfold unsplitModel
  simp only [hn, Bool.true_or, if_true, ite_true, hcond, Bool.false_eq_true, if_false,
    ite_false]
  have hbase : suf <:+ ("//" ++ netloc ++ path).data := by
    have : suf <:+ ['/', '/'] ++ (netloc.data ++ path.data) := sufxExtendLeft hs _
    simpa [strDataAppend, List.append_assoc] using this
  by_cases h3 : (scheme != "") = true <;>
    simp only [h3, if_true, if_false, ite_true, ite_false, Bool.false_eq_true]
  · exact sufxExtendLeft hbase (scheme ++ ":").data
  · exact hbase

theorem urljoinMerge_keeps (scheme netloc bpath p : String) (suf : List Char)
    (hne : suf ≠ []) (hslash : '/' ∉ suf) (hdot : ∀ d, suf.getLastD d ≠ '.')
    (hp : suf <:+ p.data) :
    suf <:+ (urljoinMerge scheme netloc bpath p).data := by
  unfold urljoinMerge
  have hls := sufx_splitChar_last '/' p.data suf hp hslash
  set lastSeg := (splitChar '/' p.data).getLastD [] with hlsdef
  have hlne : lastSeg ≠ [] := by
    intro h0
    rw [h0] at hls
    exact hne (List.suffix_nil.mp hls)
  have hlsd : ∀ d, lastSeg.getLastD d = suf.getLastD d := fun d => sufx_getLastD hls hne d
  have hd1 : lastSeg ≠ ['.'] := by
    intro h0
    have := hlsd '.'
    rw [h0] at this
    exact hdot '.' this.symm
  have hd2 : lastSeg ≠ ['.', '.'] := by
    intro h0
    have := hlsd '.'
    rw [h0] at this
    exact hdot '.' this.symm
  have hsegdec : ∀ segs : List (List Char),
      segs = splitChar '/' p.data ∨
        (∃ bps, segs = filterMid (bps ++ splitChar '/' p.data)) →
      ∃ m, segs = m ++ [lastSeg] := by
    rintro segs (rfl | ⟨bps, rfl⟩)
    · exact concat_getLastD [] _ (splitChar_ne_nil '/' p.data)
    · obtain ⟨m0, hm0⟩ := concat_getLastD [] _ (splitChar_ne_nil '/' p.data)
      rw [← hlsdef] at hm0
      rw [hm0, ← List.append_assoc]
      exact filterMid_concat _ _
  have hkey : ∀ segs : List (List Char), (∃ m, segs = m ++ [lastSeg]) →
      suf <:+ (unsplitModel scheme netloc
        (if joinSlashC (if segs.getLastD [] == ['.'] || segs.getLastD [] == ['.', '.'] then
            dotResolve segs [] ++ [[]] else dotResolve segs []) == [] then "/"
          else ⟨joinSlashC (if segs.getLastD [] == ['.'] || segs.getLastD [] == ['.', '.'] then
            dotResolve segs [] ++ [[]] else dotResolve segs [])⟩)).data := by
    rintro segs ⟨m, rfl⟩
    have hgl : (m ++ [lastSeg]).getLastD [] = lastSeg := getLastD_concat2 m lastSeg []
    have hcond : ((m ++ [lastSeg]).getLastD [] == ['.'] ||
        (m ++ [lastSeg]).getLastD [] == ['.', '.']) = false := by
      rw [hgl]
      simp [hd1, hd2]
    rw [hcond]
    simp only [Bool.false_eq_true, if_false, ite_false]
    have hres : dotResolve (m ++ [lastSeg]) [] = dotResolve m [] ++ [lastSeg] := by
      rw [dotResolve_append]
      exact dotResolve_keep lastSeg hd2 hd1 _
    rw [hres]
    have hjoin : suf <:+ joinSlashC (dotResolve m [] ++ [lastSeg]) :=
      List.IsSuffix.trans hls (joinSlash_ends _ _)
    have hjne : (joinSlashC (dotResolve m [] ++ [lastSeg]) == []) = false := by
      rcases hjoin with ⟨t, ht⟩
      cases h0 : joinSlashC (dotResolve m [] ++ [lastSeg]) with
      | nil =>
        rw [h0] at ht
        have : suf = [] := by
          cases t <;> simp_all
        exact absurd this hne
      | cons a b => simp
    rw [hjne]
    simp only [Bool.false_eq_true, if_false, ite_false]
    exact unsplit_keeps_path scheme netloc _ suf hjoin
  by_cases hps : pyStartsWith p "/" = true <;>
    simp only [hps, if_true, if_false, ite_true, ite_false, Bool.false_eq_true]
  · exact hkey _ (hsegdec _ (Or.inl rfl))
  · exact hkey _ (hsegdec _ (Or.inr ⟨_, rfl⟩))

theorem urljoin_tail_keeps (sch bsch bnet bpath rest url : String) (suf : List Char)
    (hne : suf ≠ []) (hslash : '/' ∉ suf) (hdot : ∀ d, suf.getLastD d ≠ '.')
    (hrest : suf <:+ rest.data) (hurl : suf <:+ url.data) :
    suf <:+ (if sch != bsch || !(usesRelative.contains sch) then url
      else
        let np := splitNetloc rest
        if usesNetloc.contains sch && np.1 != "" then unsplitModel sch np.1 np.2
        else
          let netloc := if usesNetloc.contains sch then bnet else np.1
          let path := np.2
          if path == "" then unsplitModel sch netloc bpath
          else urljoinMerge sch netloc bpath path).data := by
  by_cases hmis : (sch != bsch || !(usesRelative.contains sch)) = true
  · simp only [hmis, if_true, ite_true]
    exact hurl
  · simp only [hmis, Bool.false_eq_true, if_false, ite_false]
    have husesRel : usesRelative.contains sch = true := by
      by_cases hcc : usesRelative.contains sch = true
      · exact hcc
      · exfalso
        apply hmis
        rw [Bool.or_eq_true]
        right
        have hf : usesRelative.contains sch = false := by
          cases hh : usesRelative.contains sch
          · rfl
          · exact absurd hh hcc
        rw [hf]
        rfl
    have husesN := rel_sub_netloc sch husesRel
    by_cases hstart : pyStartsWith rest "//" = true
    · obtain ⟨hdec, hpshape⟩ := splitNetlocParts rest hstart
      by_cases hbn : (usesNetloc.contains sch && (splitNetloc rest).1 != "") = true
      · simp only [hbn, if_true, ite_true]
        have hnn : ((splitNetloc rest).1 != "") = true := by
          rw [Bool.and_eq_true] at hbn
          exact hbn.2
        have hnp : suf <:+ (splitNetloc rest).1.data ++ (splitNetloc rest).2.data := by
          rw [hdec] at hrest
          exact sufx_chop hrest (fun d => rfl) hslash
        exact unsplit_keeps_netloc sch _ _ hpshape hnn suf hnp
      · simp only [hbn, Bool.false_eq_true, if_false, ite_false]
        have hn0 : ((splitNetloc rest).1 != "") = false := by
          cases hh : ((splitNetloc rest).1 != "")
          · rfl
          · exfalso
            apply hbn
            rw [Bool.and_eq_true]
            exact ⟨husesN, hh⟩
        have hneq : (splitNetloc rest).1 = "" := by
          simpa using hn0
        have hp : suf <:+ (splitNetloc rest).2.data := by
          rw [hdec, hneq] at hrest
          exact sufx_chop hrest (fun d => rfl) hslash
        by_cases hpe : ((splitNetloc rest).2 == "") = true
        · exfalso
          have hpz : (splitNetloc rest).2 = "" := eq_of_beq hpe
          rw [hpz] at hp
          exact hne (List.suffix_nil.mp hp)
        · simp only [hpe, Bool.false_eq_true, if_false, ite_false]
          exact urljoinMerge_keeps sch _ bpath _ suf hne hslash hdot hp
    · have hsf : pyStartsWith rest "//" = false := by
        cases hh : pyStartsWith rest "//"
        · rfl
        · exact absurd hh hstart
      have hnosl := splitNetlocNoSlash rest hsf
      rw [hnosl]
      have hfalse : (usesNetloc.contains sch && (("", rest) : String × String).1 != "") =
          false := by simp
      simp only [hfalse, Bool.false_eq_true, if_false, ite_false]
      by_cases hpe : ((("", rest) : String × String).2 == "") = true
      · exfalso
        have hpz : rest = "" := eq_of_beq hpe
        rw [hpz] at hrest
        exact hne (List.suffix_nil.mp hrest)
      · simp only [hpe, Bool.false_eq_true, if_false, ite_false]
        exact urljoinMerge_keeps sch _ bpath _ suf hne hslash hdot hrest

theorem urljoin_keeps_sufx (base url : String) (suf : List Char)
    (hne : suf ≠ []) (hslash : '/' ∉ suf) (hcolon : ':' ∉ suf)
    (hdot : ∀ d, suf.getLastD d ≠ '.')
    (hsuf : suf <:+ url.data) : suf <:+ (urljoin base url).data := by
  unfold urljoin
  by_cases hb : (base == "") = true
  · simp only [hb, if_true, ite_true]
    exact hsuf
  · simp only [hb, Bool.false_eq_true, if_false, ite_false]
    by_cases hu : (url == "") = true
    · exfalso
      have hz : url = "" := eq_of_beq hu
      rw [hz] at hsuf
      exact hne (List.suffix_nil.mp hsuf)
    · simp only [hu, Bool.false_eq_true, if_false, ite_false]
      cases hsp : splitScheme url with
      | none =>
        simp only [hsp]
        exact urljoin_tail_keeps (urlsplitModel base).1 (urlsplitModel base).1
          (urlsplitModel base).2.1 (urlsplitModel base).2.2 url url suf
          hne hslash hdot hsuf hsuf
      | some pr =>
        obtain ⟨sc, r⟩ := pr
        simp only [hsp]
        obtain ⟨raw, hdec, hlast⟩ := splitSchemeParts url sc r hsp
        have hrest : suf <:+ r.data := by
          rw [hdec] at hsuf
          exact sufx_chop hsuf hlast hcolon
        exact urljoin_tail_keeps sc (urlsplitModel base).1
          (urlsplitModel base).2.1 (urlsplitModel base).2.2 r url suf
          hne hslash hdot hrest hsuf

theorem tifLastNotDot (c : Char) : (".tif" : String).data.getLastD c ≠ '.' := by
  have h2 : (".tif" : String).data.getLastD c = 'f' := rfl
  rw [h2]
  decide

theorem tiffLastNotDot (c : Char) : (".tiff" : String).data.getLastD c ≠ '.' := by
  have h2 : (".tiff" : String).data.getLastD c = 'f' := rfl
  rw [h2]
  decide

theorem resolve_keeps_sufx (base r : String) (suf : List Char)
    (hne : suf ≠ []) (hslash : '/' ∉ suf) (hcolon : ':' ∉ suf)
    (hdot : ∀ d, suf.getLastD d ≠ '.')
    (hsuf : suf <:+ r.data) : suf <:+ (resolve_relative_url base r).data := by
  unfold resolve_relative_url
  by_cases h1 : (pyStartsWith r "http://" || pyStartsWith r "https://") = true
  · simp only [h1, if_true, ite_true]
    exact hsuf
  · simp only [h1, Bool.false_eq_true, if_false, ite_false]
    by_cases h2 : pyStartsWith r "./" = true
    · simp only [h2, if_true, ite_true]
      obtain ⟨t, ht⟩ := startsPair '.' '/' r h2
      have hdrop : r.data.drop 2 = t := by rw [ht]; rfl
      rw [hdrop]
      refine urljoin_keeps_sufx base ⟨t⟩ suf hne hslash hcolon hdot ?_
      rw [ht] at hsuf
      have hsuf2 : suf <:+ ['.', '/'] ++ t := hsuf
      exact sufx_chop hsuf2 (fun d => rfl) hslash
    · simp only [h2, Bool.false_eq_true, if_false, ite_false]
      exact urljoin_keeps_sufx base r suf hne hslash hcolon hdot hsuf

theorem mem_buildVisual (base : String) (assets : List (String × Asset)) (v : String)
    (hv : v ∈ buildVisualAux base assets []) :
    ∃ p, p ∈ rasterAssets assets ∧ v = absHrefOf base p := by
  rw [buildVisualAux_split] at hv
  simp only [List.append_nil, List.mem_append, List.mem_reverse, List.mem_map] at hv
  rcases hv with ⟨p, hp, rfl⟩ | ⟨p, hp, rfl⟩
  · exact ⟨p, List.mem_of_mem_filter hp, rfl⟩
  · exact ⟨p, List.mem_of_mem_filter hp, rfl⟩

theorem template_starts (ev gr ti da bid : String) :
    pyStartsWith (tiffTemplate ev gr ti da bid) "https://" = true := by
  rw [pyStartsWithEq]
  unfold tiffTemplate
  simp only [strDataAppend, List.append_assoc]
  exact preExtend ((isPrefixOfEq _ _).mp (by decide)) _

theorem template_ends (ev gr ti da bid : String) :
    strEndsWith (tiffTemplate ev gr ti da bid) ".tif" = true := by
  rw [strEndsWithEq]
  unfold tiffTemplate
  simp only [strDataAppend, List.append_assoc]
  iterate 10 refine sufxExtendLeft ?_ _
  exact (isSuffixOfEq _ _).mp (by decide)

/-- C10 (amended): whenever `generate_tiff_url` returns a result, the result
    ends in `.tif` or `.tiff`; moreover it either starts with `http://` or
    `https://` (always the case for the synthesized fallback URL), or it is
    the resolution of one of the item's own raster asset hrefs — which keeps
    the href's scheme, so an asset href with a non-http(s) scheme is passed
    through unchanged. -/
theorem derived_url_endings (g : Graph) (url res : String) (w : List String)
    (h : generate_tiff_url g url = (some res, w)) :
    (strEndsWith res ".tif" || strEndsWith res ".tiff") = true ∧
    ((pyStartsWith res "http://" || pyStartsWith res "https://") = true ∨
      ∃ d p, fetchOf g url = .ok d ∧ p ∈ d.assets ∧ tifCheck p.2.href = true ∧
        res = resolve_relative_url url p.2.href) := by
  unfold generate_tiff_url at h
  cases hfetch : fetchOf g url with
  | netErr => rw [hfetch] at h; simp at h
  | badJson => rw [hfetch] at h; simp at h
  | badStatus => rw [hfetch] at h; simp at h
  | ok d =>
    rw [hfetch] at h
    by_cases hcond : (d.type == some "Feature" && pyTruthy d.stac_version) = true
    · simp only [hcond, if_true, ite_true] at h
      cases hb : buildVisualAux url d.assets [] with
      | cons v vs =>
        simp only [hb] at h
        rw [Prod.mk.injEq, Option.some.injEq] at h
        obtain ⟨rfl, rfl⟩ := h
        obtain ⟨p, hpR, rfl⟩ := mem_buildVisual url d.assets v
          (by rw [hb]; exact List.mem_cons_self v vs)
        have htif : tifCheck p.2.href = true := by
          have := List.mem_filter.mp hpR
          exact this.2
        have hmem : p ∈ d.assets := List.mem_of_mem_filter hpR
        have hsplit : (strEndsWith p.2.href ".tif" ||
            strEndsWith p.2.href ".tiff") = true := by
          unfold tifCheck at htif
          rw [Bool.and_eq_true] at htif
          exact htif.2
        constructor
        · rw [Bool.or_eq_true] at hsplit ⊢
          rcases hsplit with h4 | h4
          · left
            rw [strEndsWithEq] at h4 ⊢
            exact resolve_keeps_sufx url p.2.href (".tif").data (by decide)
              (by decide) (by decide) tifLastNotDot h4
          · right
            rw [strEndsWithEq] at h4 ⊢
            exact resolve_keeps_sufx url p.2.href (".tiff").data (by decide)
              (by decide) (by decide) tiffLastNotDot h4
        · exact Or.inr ⟨d, p, rfl, hmem, htif, rfl⟩
      | nil =>
        simp only [hb] at h
        split at h
        · rw [Prod.mk.injEq, Option.some.injEq] at h
          obtain ⟨hres, rfl⟩ := h
          rw [← hres]
          constructor
          · rw [Bool.or_eq_true]
            exact Or.inl (template_ends _ _ _ _ _)
          · refine Or.inl ?_
            rw [Bool.or_eq_true]
            exact Or.inr (template_starts _ _ _ _ _)
        · simp at h
    · simp only [hcond, Bool.false_eq_true, if_false, ite_false] at h
      simp at h

/-- Witness for C10 (amended) at the `ftp` asset example: the conclusion of
    `derived_url_endings` holds for the returned `ftp://e/x.tif`. -/
theorem derived_url_endings_witness :
    (strEndsWith "ftp://e/x.tif" ".tif" || strEndsWith "ftp://e/x.tif" ".tiff") = true ∧
    ((pyStartsWith "ftp://e/x.tif" "http://" ||
        pyStartsWith "ftp://e/x.tif" "https://") = true ∨
      ∃ d p, fetchOf ftpAssetGraph "https://h/item.json" = .ok d ∧ p ∈ d.assets ∧
        tifCheck p.2.href = true ∧
        "ftp://e/x.tif" = resolve_relative_url "https://h/item.json" p.2.href) :=
  derived_url_endings ftpAssetGraph "https://h/item.json" "ftp://e/x.tif" []
    (by decide)
